import Mathlib

/-!
Verification of the center-sampling subsystem of the Kernel Mixture Network
repository (`kmn.py`).  The subsystem under study is the family of sampler
functions (`random_sampler`, `all_sampler`, `k_means_sampler`,
`agglomerative_sampler`, `distance_sampler`, `fixed_sampler`), the registry
`sampler_from_name`, and the orchestration function `sample_center_points`.

Modelling decisions, faithful to the Python source:

* Scalar target values are modelled as rationals (`ℚ`); the claims under
  study concern ordering, membership and lengths only, none of which depend
  on floating-point rounding.
* A sampler is a function from a value list and a requested count to either
  a result list or a raised Python exception, modelled with `Except`.
* The count `k` is an `Int`, because the source performs `k -= 2` which can
  go negative and because callers may pass non-positive counts.
* The NumPy global random generator is modelled by an explicit oracle
  parameter `perm`: the outcome of one `np.random.choice(y, k, replace=False)`
  call is determined by a permutation of the index range, of which the first
  `k` entries are the chosen indices.  Quantifying over all permutations of
  `List.range y.length` quantifies over all possible generator outcomes.
* `KMeans` and `AgglomerativeClustering` are external collaborators
  (scikit-learn); their fitted centers are modelled as abstract `Sampler`
  parameters where a claim needs them.
* The module `kmn.py` never imports the Python `warnings` module, yet
  `sample_center_points` calls `warnings.warn(...)` on both deprecated
  parameter paths (`k != 100`, and `method` a string or `None`).  At runtime
  this raises `NameError`, which the embedding reproduces.
* `np.sort(y)` returns a sorted copy of its argument (it is the copying
  variant, not the in-place `ndarray.sort`); it is modelled by
  `List.insertionSort`, and the mutation claim is settled against a
  state-passing variant of the orchestration function in which every read of
  the caller's buffer goes through the state.
-/

namespace KMN

/-- Python exceptions that the subsystem can raise, with their messages where
a claim depends on the message. -/
inductive PyErr where
  | nameError (msg : String)
  | valueError (msg : String)
  | notImplementedError
  | indexError
  deriving Repr, DecidableEq

/-- A sampler strategy: from a value list and a requested count to a center
list or a raised exception. -/
abbrev Sampler : Type := List ℚ → Int → Except PyErr (List ℚ)

/-- `np.random.choice(y, k, replace=False)` under the explicit random-oracle
`perm`: a negative `k` raises `ValueError`, a `k` exceeding the population
size raises `ValueError` (replace is False), and otherwise the values at the
first `k` indices of `perm` are returned. -/
def npRandomChoice (perm : List Nat) (y : List ℚ) (k : Int) :
    Except PyErr (List ℚ) :=
  if k < 0 then
    .error (.valueError ("negative dimensions are not allowed"))
  else if y.length < k.toNat then
    .error (.valueError ("Cannot take a larger sample than population when replace is False"))
  else
    .ok ((perm.take k.toNat).map (fun i => y.getD i 0))

/-- `random_sampler(y, k)`: `return np.random.choice(y, k, replace=False)`. -/
def random_sampler (perm : List Nat) : Sampler :=
  fun y k => npRandomChoice perm y k

/-- `all_sampler(y, k)`: `return y`. -/
def all_sampler : Sampler :=
  fun y _ => .ok y

/-- `distance_sampler(y, k)`: `raise NotImplementedError`. -/
def distance_sampler : Sampler :=
  fun _ _ => .error .notImplementedError

/-- `fixed_sampler(y, k)`: `return np.array([1, 2, 3, 4, 5])`. -/
def fixed_sampler : Sampler :=
  fun _ _ => .ok [1, 2, 3, 4, 5]

/-- `sampler_from_name(name)`: dictionary lookup over the registered names,
with `None` mapping to `all_sampler` and a `KeyError` converted to
`ValueError(f'unknown method ...')`.  The `k_means` and `agglomerative`
entries delegate to scikit-learn, supplied here as the abstract samplers
`kmeans` and `agglo`; the random oracle for the `random` entry is `perm`. -/
def sampler_from_name (kmeans agglo : Sampler) (perm : List Nat) :
    Option String → Except PyErr Sampler
  | none => .ok all_sampler
  | some s =>
    if s = "random" then .ok (random_sampler perm)
    else if s = "distance" then .ok distance_sampler
    else if s = "k_means" then .ok kmeans
    else if s = "agglomerative" then .ok agglo
    else .error (.valueError ("unknown method " ++ s))

/-- The `method` argument of `sample_center_points`: a direct function
reference, a string name, or `None` (the Python default). -/
inductive Method where
  | fn (f : Sampler)
  | str (s : String)
  | noneM

/-- The `NameError` raised by `warnings.warn(...)` in a module that never
imports `warnings`. -/
def warningsNameError : PyErr := .nameError ("name warnings is not defined")

/-- `sample_center_points(y, method=None, k=100, keep_edges=False)`.

Line by line: `if k != 100:` runs `warnings.warn(...)`, which raises
`NameError` because `kmn.py` never imports `warnings`; likewise
`if isinstance(method, str) or method is None:` runs `warnings.warn(...)`
before `method = sampler_from_name(method)` is ever reached.  Then
`y = y.ravel()` (identity on the one-dimensional inputs modelled here);
when `keep_edges` the source sorts a copy (`y = np.sort(y)`), takes
`centers = np.array([y[0], y[-1]])` (`IndexError` on an empty input),
trims (`y = y[1:-1]`) and decrements the budget (`k -= 2`); finally
`cluster_centers = method(y, k)` and
`return np.append(centers, cluster_centers)`. -/
def sample_center_points (method : Method) (k : Int) (keep_edges : Bool)
    (y : List ℚ) : Except PyErr (List ℚ) :=
  if k ≠ 100 then
    .error warningsNameError
  else
    match method with
    | .str _ => .error warningsNameError
    | .noneM => .error warningsNameError
    | .fn f =>
      if keep_edges then
        match List.insertionSort (· ≤ ·) y with
        | [] => .error .indexError
        | a :: rest =>
          match f rest.dropLast (k - 2) with
          | .error e => .error e
          | .ok cc => .ok (a :: rest.getLastD a :: cc)
      else
        match f y k with
        | .error e => .error e
        | .ok cc => .ok cc

/-- State-passing variant of `sample_center_points`, in which the caller's
target buffer is the state and every access the source makes to that buffer
is a read through the state: `y.ravel()` returns a view of the buffer,
`np.sort` builds a sorted copy, slicing builds further views, and the chosen
sampler only reads its argument.  No operation in the source writes to the
buffer, so no `set` occurs. -/
def sample_center_points_run (method : Method) (k : Int) (keep_edges : Bool) :
    StateM (List ℚ) (Except PyErr (List ℚ)) :=
  if k ≠ 100 then
    pure (.error warningsNameError)
  else
    match method with
    | .str _ => pure (.error warningsNameError)
    | .noneM => pure (.error warningsNameError)
    | .fn f => do
      let y ← get
      if keep_edges then
        match List.insertionSort (· ≤ ·) y with
        | [] => pure (.error .indexError)
        | a :: rest =>
          match f rest.dropLast (k - 2) with
          | .error e => pure (.error e)
          | .ok cc => pure (.ok (a :: rest.getLastD a :: cc))
      else
        match f y k with
        | .error e => pure (.error e)
        | .ok cc => pure (.ok cc)

/-! ### Helper lemmas about sorted lists -/

theorem sorted_le_getLastD (l : List ℚ) : ∀ (a : ℚ), List.Sorted (· ≤ ·) (a :: l) →
    ∀ v ∈ a :: l, v ≤ l.getLastD a := by
  induction l with
  | nil => intro a _ v hv; simp only [List.mem_singleton] at hv; simp [hv]
  | cons b t ih =>
    intro a h v hv
    rw [List.getLastD_cons]
    rcases List.mem_cons.1 hv with rfl | hv'
    · exact le_trans (List.rel_of_sorted_cons h b (by simp)) (ih b h.of_cons b (by simp))
    · exact ih b h.of_cons v hv'

theorem sorted_head_le (l : List ℚ) (a : ℚ) (h : List.Sorted (· ≤ ·) (a :: l))
    (v : ℚ) (hv : v ∈ a :: l) : a ≤ v := by
  rcases List.mem_cons.1 hv with rfl | hv'
  · exact le_refl v
  · exact List.rel_of_sorted_cons h v hv'

theorem dropLast_append_getLastD (l : List ℚ) (a : ℚ) (h : l ≠ []) :
    l.dropLast ++ [l.getLastD a] = l := by
  induction l generalizing a with
  | nil => exact absurd rfl h
  | cons b t ih =>
    cases t with
    | nil => simp
    | cons c u =>
      rw [List.getLastD_cons, List.dropLast_cons₂, List.cons_append,
        ih b (by simp)]

theorem getLastD_mem_cons (l : List ℚ) (a : ℚ) : l.getLastD a ∈ a :: l := by
  cases l with
  | nil => simp
  | cons b t =>
    have h := dropLast_append_getLastD (b :: t) a (by simp)
    exact List.mem_cons_of_mem a (h ▸ List.mem_append_right _ (by simp))

/-! ### Claim theorems -/

/-- C1: the spec requires the deprecated parameter paths of
`sample_center_points` (a string or absent `method`, an explicit `k`) to
behave exactly like the non-deprecated direct-function call and merely emit a
deprecation warning.  The code instead raises `NameError` on every deprecated
path, because `kmn.py` calls `warnings.warn(...)` without ever importing the
`warnings` module; the direct-function call with the default `k = 100`
succeeds.  This theorem evaluates the embedding at such inputs. -/
theorem deprecated_paths_raise_nameError :
    sample_center_points (.fn all_sampler) 100 false [1, 2, 3] = .ok [1, 2, 3] ∧
    sample_center_points (.str ("random")) 100 false [1, 2, 3] = .error warningsNameError ∧
    sample_center_points .noneM 100 false [1, 2, 3] = .error warningsNameError ∧
    sample_center_points (.fn all_sampler) 5 false [1, 2, 3] = .error warningsNameError :=
  ⟨rfl, rfl, rfl, rfl⟩

/-- C4 (counterexample): with `keep_edges = True` and `k = 1 < 2`, the call
does not raise any configuration error about the edge budget: it raises
`NameError` from the unguarded `warnings.warn` call (no `ConfigurationError`
exists anywhere in the code, and `k` is never validated). -/
theorem small_k_keep_edges_no_configurationError :
    sample_center_points (.fn all_sampler) 1 true [1, 2] =
      .error (.nameError ("name warnings is not defined")) := rfl

/-- C4 (amended): with `keep_edges = True` and `k < 2` the call does fail
before any negative strategy budget is computed, but with `NameError` (the
deprecation branch for `k ≠ 100` references the never-imported `warnings`
module), not with a `ConfigurationError`. -/
theorem small_k_keep_edges_raises_nameError (m : Method) (k : Int) (y : List ℚ)
    (h : k < 2) :
    sample_center_points m k true y = .error warningsNameError := by
  have hk : k ≠ 100 := by omega
  simp [sample_center_points, hk]

/-- C4 (witness for the amended theorem). -/
theorem small_k_keep_edges_raises_nameError_witness :
    sample_center_points .noneM (-5) true [3] = .error warningsNameError :=
  small_k_keep_edges_raises_nameError .noneM (-5) [3] (by norm_num)

/-- C5 (counterexample): with `k = 0` the call does not raise a
`ConfigurationError`: it raises `NameError` from the unguarded
`warnings.warn` call; the code never validates `k`. -/
theorem nonpositive_k_no_configurationError :
    sample_center_points (.fn all_sampler) 0 false [1, 2, 3] =
      .error (.nameError ("name warnings is not defined")) := rfl

/-- C5 (amended): for every method, every `keep_edges` and every targets
array, a non-positive `k` makes the call fail, but with `NameError` (the
`k ≠ 100` deprecation branch references the never-imported `warnings`
module), not with a `ConfigurationError`. -/
theorem nonpositive_k_raises_nameError (m : Method) (k : Int) (ke : Bool)
    (y : List ℚ) (h : k ≤ 0) :
    sample_center_points m k ke y = .error warningsNameError := by
  have hk : k ≠ 100 := by omega
  simp [sample_center_points, hk]

/-- C5 (witness for the amended theorem). -/
theorem nonpositive_k_raises_nameError_witness :
    sample_center_points (.fn fixed_sampler) (-3) true [] = .error warningsNameError :=
  nonpositive_k_raises_nameError (.fn fixed_sampler) (-3) true [] (by norm_num)

/-- C8: invoking the `distance` strategy fails with `NotImplementedError` on
every input and never returns a value. -/
theorem distance_sampler_notImplemented (y : List ℚ) (k : Int) :
    distance_sampler y k = .error .notImplementedError := rfl

/-- Successful `keep_edges = True` calls are fully characterized: the budget
must be the default `100`, the method must be a direct function reference,
the sorted copy of the targets is non-empty, the strategy succeeded on the
edge-trimmed interior with budget `k - 2`, and the result prepends the first
and last elements of the sorted copy. -/
theorem ok_keep_edges_elim (m : Method) (k : Int) (y cs : List ℚ)
    (h : sample_center_points m k true y = .ok cs) :
    k = 100 ∧ ∃ f a rest cc, m = .fn f ∧
      List.insertionSort (· ≤ ·) y = a :: rest ∧
      f rest.dropLast (k - 2) = .ok cc ∧
      cs = a :: rest.getLastD a :: cc := by
  unfold sample_center_points at h
  split at h
  · exact absurd h (by simp)
  next hk =>
    have hk100 : k = 100 := by omega
    refine ⟨hk100, ?_⟩
    split at h
    · exact absurd h (by simp)
    · exact absurd h (by simp)
    · rw [if_pos rfl] at h
      split at h
      · exact absurd h (by simp)
      next a rest hs =>
        split at h
        · exact absurd h (by simp)
        next cc hf =>
          simp only [Except.ok.injEq] at h
          exact ⟨_, a, rest, cc, rfl, hs, hf, h.symm⟩

/-- C2: for every non-empty targets array and every strategy, when
`keep_edges` is true any array returned by `sample_center_points` contains a
minimum element of the original input and a maximum element of the original
input. -/
theorem keep_edges_retains_min_and_max (m : Method) (k : Int) (y cs : List ℚ)
    (_hy : y ≠ []) (h : sample_center_points m k true y = .ok cs) :
    (∃ mn ∈ cs, mn ∈ y ∧ ∀ v ∈ y, mn ≤ v) ∧
    (∃ mx ∈ cs, mx ∈ y ∧ ∀ v ∈ y, v ≤ mx) := by
  obtain ⟨hk, f, a, rest, cc, hm, hs, hf, hcs⟩ := ok_keep_edges_elim m k y cs h
  have hperm : (a :: rest).Perm y := hs ▸ List.perm_insertionSort _ y
  have hsorted : List.Sorted (· ≤ ·) (a :: rest) :=
    hs ▸ List.sorted_insertionSort _ y
  subst hcs
  constructor
  · exact ⟨a, by simp, hperm.mem_iff.1 (by simp), fun v hv =>
      sorted_head_le rest a hsorted v (hperm.mem_iff.2 hv)⟩
  · exact ⟨rest.getLastD a, by simp, hperm.mem_iff.1 (getLastD_mem_cons rest a),
      fun v hv => sorted_le_getLastD rest a hsorted v (hperm.mem_iff.2 hv)⟩

/-- C2 (witness): targets `[3, 1, 2]` with the `all_sampler` strategy return
`[1, 3, 2]`, which contains the minimum `1` and the maximum `3`. -/
theorem keep_edges_retains_min_and_max_witness :
    (∃ mn ∈ ([1, 3, 2] : List ℚ), mn ∈ ([3, 1, 2] : List ℚ) ∧
      ∀ v ∈ ([3, 1, 2] : List ℚ), mn ≤ v) ∧
    (∃ mx ∈ ([1, 3, 2] : List ℚ), mx ∈ ([3, 1, 2] : List ℚ) ∧
      ∀ v ∈ ([3, 1, 2] : List ℚ), v ≤ mx) :=
  keep_edges_retains_min_and_max (.fn all_sampler) 100 [3, 1, 2] [1, 3, 2]
    (by simp) rfl

/-- C3: for every strategy that returns exactly the requested number of
centers (which excludes `identity` and `fixed` but covers `random`,
`k_means` and `agglomerative`), every array returned by
`sample_center_points` has length exactly `k`: the strategy output has
length `k` when `keep_edges` is false, and length `k - 2` plus the two
reserved edge values when `keep_edges` is true. -/
theorem returned_length_equals_k (f : Sampler) (k : Int) (ke : Bool)
    (y cs : List ℚ)
    (hf : ∀ ys j out, f ys j = .ok out → out.length = j.toNat)
    (h : sample_center_points (.fn f) k ke y = .ok cs) :
    cs.length = k.toNat := by
  cases ke with
  | true =>
    obtain ⟨hk, g, a, rest, cc, hm, hs, hg, hcs⟩ := ok_keep_edges_elim _ k y cs h
    injection hm with hfg
    subst hfg hk hcs
    have hlen := hf rest.dropLast (100 - 2) cc hg
    simp [hlen]
  | false =>
    by_cases hk : k = 100
    · subst hk
      simp only [sample_center_points, ne_eq, not_true_eq_false, if_false,
        Bool.false_eq_true, reduceIte] at h
      rcases hfy : f y 100 with e | cc
      · rw [hfy] at h; exact absurd h (by simp)
      · rw [hfy] at h
        simp only [Except.ok.injEq] at h
        rw [← h]
        exact hf y 100 cc hfy
    · exact absurd h (by simp [sample_center_points, hk])

/-- C3 (witness): a strategy that returns exactly the requested number of
centers, applied to `[3, 1, 2]` with `keep_edges = True` and `k = 100`,
yields the two edges plus 98 strategy centers, 100 in total. -/
theorem returned_length_equals_k_witness :
    ((1 : ℚ) :: 3 :: List.replicate 98 0).length = (100 : Int).toNat :=
  returned_length_equals_k (fun _ j => .ok (List.replicate j.toNat 0)) 100 true
    [3, 1, 2] ((1 : ℚ) :: 3 :: List.replicate 98 0)
    (fun ys j out h => by injection h with h; rw [← h, List.length_replicate])
    rfl

/-- C6: `sampler_from_name` on an unregistered name raises `ValueError`
whose message names the offending identifier, as the claim states; but
`sample_center_points` never reaches that lookup on the string path: it
raises `NameError` first, because the deprecation branch for string methods
calls `warnings.warn` and `kmn.py` never imports `warnings`. -/
theorem unknown_strategy_name_errors (kmeans agglo : Sampler) (perm : List Nat)
    (s : String)
    (h : s ∉ (["random", "distance", "k_means", "agglomerative"] : List String)) :
    sampler_from_name kmeans agglo perm (some s) =
      .error (.valueError ("unknown method " ++ s)) ∧
    sample_center_points (.str s) 100 false [1] = .error warningsNameError := by
  simp only [List.mem_cons, List.not_mem_nil, or_false, not_or] at h
  obtain ⟨h1, h2, h3, h4⟩ := h
  exact ⟨by simp [sampler_from_name, h1, h2, h3, h4], rfl⟩

/-- C6 (witness): the unregistered name `bogus`. -/
theorem unknown_strategy_name_errors_witness :
    sampler_from_name all_sampler all_sampler [] (some ("bogus")) =
      .error (.valueError ("unknown method " ++ "bogus")) ∧
    sample_center_points (.str ("bogus")) 100 false [1] = .error warningsNameError :=
  unknown_strategy_name_errors all_sampler all_sampler [] ("bogus") (by decide)

/-- C7: for every random-generator outcome (modelled as a permutation of the
index range), the `random` strategy with `0 < k ≤ len(values)` returns `k`
values drawn at pairwise-distinct input positions, each a member of the
original input; and with `k > len(values)` it fails with the
without-replacement `ValueError` (the spec's `SamplingError`). -/
theorem random_sampler_without_replacement (perm : List Nat) (y : List ℚ)
    (k : Int) (hperm : perm.Perm (List.range y.length)) :
    (0 < k → k.toNat ≤ y.length →
      ∃ idxs : List Nat, idxs.Nodup ∧ idxs.length = k.toNat ∧
        (∀ i ∈ idxs, i < y.length) ∧
        random_sampler perm y k = .ok (idxs.map (fun i => y.getD i 0)) ∧
        ∀ v ∈ idxs.map (fun i => y.getD i 0), v ∈ y) ∧
    ((y.length : Int) < k →
      random_sampler perm y k =
        .error (.valueError ("Cannot take a larger sample than population when replace is False"))) := by
  have hnd : perm.Nodup := hperm.nodup_iff.mpr (List.nodup_range _)
  have hlen : perm.length = y.length := by simpa using hperm.length_eq
  have hmem : ∀ i ∈ perm, i < y.length := fun i hi =>
    List.mem_range.1 (hperm.subset hi)
  constructor
  · intro hk0 hky
    have h1 : ¬k < 0 := by omega
    have h2 : ¬y.length < k.toNat := by omega
    refine ⟨perm.take k.toNat, hnd.sublist (List.take_sublist _ _), ?_, ?_, ?_, ?_⟩
    · rw [List.length_take, hlen]
      exact Nat.min_eq_left hky
    · exact fun i hi => hmem i (List.take_subset _ _ hi)
    · simp only [random_sampler, npRandomChoice, if_neg h1, if_neg h2]
    · intro v hv
      rcases List.mem_map.1 hv with ⟨i, hi, rfl⟩
      have hilt : i < y.length := hmem i (List.take_subset _ _ hi)
      rw [List.getD_eq_getElem _ _ hilt]
      exact List.getElem_mem _
  · intro hky
    have h1 : ¬k < 0 := by omega
    have h2 : y.length < k.toNat := by omega
    simp only [random_sampler, npRandomChoice, if_neg h1, if_pos h2]

/-- C7 (witness): the generator outcome `[2, 0, 1]` on targets `[5, 6, 7]`
with `k = 2` draws positions `2` and `0`, distinct and in range. -/
theorem random_sampler_without_replacement_witness :
    ∃ idxs : List Nat, idxs.Nodup ∧ idxs.length = (2 : Int).toNat ∧
      (∀ i ∈ idxs, i < ([5, 6, 7] : List ℚ).length) ∧
      random_sampler [2, 0, 1] [5, 6, 7] 2 =
        .ok (idxs.map (fun i => ([5, 6, 7] : List ℚ).getD i 0)) ∧
      ∀ v ∈ idxs.map (fun i => ([5, 6, 7] : List ℚ).getD i 0),
        v ∈ ([5, 6, 7] : List ℚ) :=
  (random_sampler_without_replacement [2, 0, 1] [5, 6, 7] 2 (by decide)).1
    (by decide) (by decide)

/-- C9: `sample_center_points` never mutates the caller's targets array: the
state-passing embedding, in which every access the source makes to the
caller's buffer is a read through the state, leaves the buffer exactly as it
was for every method, budget and `keep_edges` flag, and returns the same
result as the pure embedding (edge trimming sorts a copy, not the input). -/
theorem sampler_never_mutates_targets (m : Method) (k : Int) (ke : Bool)
    (st : List ℚ) :
    (sample_center_points_run m k ke).run st =
      (sample_center_points m k ke st, st) := by
  cases m with
  | str s =>
    by_cases hk : k = 100 <;>
      simp [sample_center_points_run, sample_center_points, hk, StateT.run,
        pure, StateT.pure]
  | noneM =>
    by_cases hk : k = 100 <;>
      simp [sample_center_points_run, sample_center_points, hk, StateT.run,
        pure, StateT.pure]
  | fn f =>
    by_cases hk : k = 100
    · subst hk
      simp only [sample_center_points_run, sample_center_points, ne_eq,
        not_true_eq_false, if_false, StateT.run, bind, StateT.bind, get,
        getThe, MonadStateOf.get, StateT.get, pure, StateT.pure]
      cases ke with
      | true =>
        rcases hs : List.insertionSort (· ≤ ·) st with _ | ⟨a, rest⟩
        · simp [hs, StateT.pure]
        · rcases hf : f rest.dropLast 98 with e | cc <;>
            simp [hs, hf, StateT.pure]
      | false =>
        rcases hf : f st 100 with e | cc <;> simp [hf, StateT.pure]
    · simp [sample_center_points_run, sample_center_points, hk, StateT.run,
        pure, StateT.pure]

/-- C10: with `keep_edges` true, edge trimming removes exactly one occurrence
of the minimum and one of the maximum: for inputs of length at least two,
the sorted copy splits as minimum, interior, maximum, the two extracted
edges plus the interior are a permutation of the whole input (so duplicates
of the extremes stay in the interior passed to the strategy), and the call
returns the edges prepended to the strategy output on the interior with
budget `98 = 100 - 2`; for a single-element input the returned edge pair is
that one value twice, with the empty array passed to the strategy. -/
theorem edge_trim_removes_one_occurrence (f : Sampler) (y : List ℚ) :
    (2 ≤ y.length →
      ∃ mn mx interior,
        List.insertionSort (· ≤ ·) y = mn :: (interior ++ [mx]) ∧
        List.Perm (mn :: mx :: interior) y ∧
        (∀ v ∈ y, mn ≤ v ∧ v ≤ mx) ∧
        sample_center_points (.fn f) 100 true y =
          (f interior 98).map (fun cc => mn :: mx :: cc)) ∧
    (∀ v : ℚ, y = [v] →
      sample_center_points (.fn f) 100 true y =
        (f [] 98).map (fun cc => v :: v :: cc)) := by
  constructor
  · intro hlen
    rcases hs : List.insertionSort (· ≤ ·) y with _ | ⟨a, rest⟩
    · have hl := List.length_insertionSort (· ≤ ·) y
      rw [hs] at hl
      simp at hl
      omega
    · have hperm : (a :: rest).Perm y := hs ▸ List.perm_insertionSort _ y
      have hsorted : List.Sorted (· ≤ ·) (a :: rest) :=
        hs ▸ List.sorted_insertionSort _ y
      have hrest : rest ≠ [] := by
        intro hnil
        have hl := hperm.length_eq
        rw [hnil] at hl
        simp at hl
        omega
      have hsplit : rest.dropLast ++ [rest.getLastD a] = rest :=
        dropLast_append_getLastD rest a hrest
      have h1 : (rest.getLastD a :: rest.dropLast).Perm rest := by
        conv_rhs => rw [← hsplit]
        exact (List.perm_append_singleton _ _).symm
      refine ⟨a, rest.getLastD a, rest.dropLast, ?_, ?_, ?_, ?_⟩
      · rw [hsplit]
      · exact (List.Perm.cons a h1).trans hperm
      · intro v hv
        exact ⟨sorted_head_le rest a hsorted v (hperm.mem_iff.2 hv),
          sorted_le_getLastD rest a hsorted v (hperm.mem_iff.2 hv)⟩
      · simp only [sample_center_points, ne_eq, not_true_eq_false, if_false,
          if_pos rfl, hs]
        rcases hf : f rest.dropLast 98 with e | cc <;>
          simp [hf, Except.map]
  · intro v hv
    subst hv
    rcases hf : f [] 98 with e | cc <;>
      simp [sample_center_points, hf, Except.map]

/-- C10 (witness): on `[4, 4, 7]`, the sorted copy `[4, 4, 7]` splits into
edge `4`, interior `[4]` (the duplicate minimum survives the trim) and edge
`7`. -/
theorem edge_trim_removes_one_occurrence_witness :
    ∃ mn mx interior,
      List.insertionSort (· ≤ ·) ([4, 4, 7] : List ℚ) = mn :: (interior ++ [mx]) ∧
      List.Perm (mn :: mx :: interior) ([4, 4, 7] : List ℚ) ∧
      (∀ v ∈ ([4, 4, 7] : List ℚ), mn ≤ v ∧ v ≤ mx) ∧
      sample_center_points (.fn all_sampler) 100 true [4, 4, 7] =
        (all_sampler interior 98).map (fun cc => mn :: mx :: cc) :=
  (edge_trim_removes_one_occurrence all_sampler [4, 4, 7]).1 (by simp)

end KMN
